import Mathlib

/-
Verification of the DeskSave file organizer.

The engine under study is the function move_files in src/script/deskSave.py:
a single pass over the immediate entries of a source directory that skips
listed or hidden names, flattens one level of subdirectories into
destination/<subdir-name>/, and classifies regular files by the lowercased
segment after the last dot of their name against an ordered category table,
moving a matched file into destination/<category>/ (created on demand).

File names are modelled as lists of characters.  The filesystem is modelled
by the list of immediate source entries given to the run, the set of
directories and files created under the destination, and an oracle saying
which individual filesystem operations (moves, rmdir) fail.  Console prints
of the script are modelled as outcome records.
-/

namespace DeskSave

/-- A file or directory name: Python strings are modelled as lists of characters. -/
abbrev Name := List Char

/-- Conversion from a Lean string literal, used only to write concrete names. -/
def s2l (s : String) : Name := s.toList

/-- Embeds Python str.lower applied to a whole name. -/
def toLowerStr (s : Name) : Name := s.map Char.toLower

/-- Embeds Python item.split('.'): splits a name at every dot, keeping empty
segments, and always returns at least one segment. -/
def splitDot : Name → List Name
  | [] => [[]]
  | c :: cs =>
    if c = '.' then [] :: splitDot cs
    else
      match splitDot cs with
      | [] => [[c]]
      | s :: ss => (c :: s) :: ss

/-- Embeds line 58 of src/script/deskSave.py:
file_extension = item.split('.')[-1].lower(). -/
def extOf (item : Name) : Name := toLowerStr ((splitDot item).getLastD [])

/-- Embeds the membership test of line 62 of src/script/deskSave.py:
file_extension in [ext.lower() for ext in data["extensions"]]. -/
def extensionMatches (ext : Name) (exts : List Name) : Bool :=
  decide (ext ∈ exts.map toLowerStr)

/-- Embeds the category scan of lines 61-62 of src/script/deskSave.py:
iterate the table in order and take the first category whose extension
list contains the file extension. -/
def findCategory : List (Name × List Name) → Name → Option Name
  | [], _ => none
  | (cat, exts) :: rest, ext =>
    if extensionMatches ext exts then some cat else findCategory rest ext

/-- Embeds Python item.startswith('.') of line 31 of src/script/deskSave.py. -/
def startsWithDot : Name → Bool
  | [] => false
  | c :: _ => c = '.'

/-- One immediate entry of the source directory, as seen by os.listdir plus
the os.path.isdir / os.path.isfile tests: a regular file, a directory with
its immediate children, or anything else (broken symlink, special file). -/
inductive Entry
  | file (name : Name)
  | dir (name : Name) (children : List Name)
  | other (name : Name)
deriving DecidableEq, Repr

/-- Name of an entry. -/
def Entry.name : Entry → Name
  | .file n => n
  | .dir n _ => n
  | .other n => n

/-- Embeds the os.path.isdir test on an entry. -/
def Entry.isDir : Entry → Bool
  | .dir _ _ => true
  | _ => false

/-- The per-item console messages of move_files, modelled as outcome records:
"Skipping folder", "Skipping file", "Moved <sub_item> to <folder_dest>",
"Deleted empty folder", "Failed to delete folder", "Moved <item> to
<file_type_dest>".  The script emits no other per-item message. -/
inductive OutcomeRecord
  | skippedFolder (name : Name)
  | skippedFile (name : Name)
  | folderChildMoved (child : Name) (folder : Name)
  | folderDeleted (name : Name)
  | folderDeleteFailed (name : Name)
  | moved (name : Name) (category : Name)
deriving DecidableEq, Repr

/-- Oracle describing which filesystem operations of a run raise an error:
moveFails n - shutil.move of top-level file n (line 69) raises;
childMoveFails d c - shutil.move of child c of subdirectory d (line 45) raises;
rmdirFails d - os.rmdir of subdirectory d (line 50) raises OSError. -/
structure ErrOracle where
  moveFails : Name → Bool
  childMoveFails : Name → Name → Bool
  rmdirFails : Name → Bool

/-- The oracle of a run in which every filesystem operation succeeds. -/
def noErr : ErrOracle := ⟨fun _ => false, fun _ _ => false, fun _ => false⟩

/-- Observable state of a run: subdirectories created under the destination,
files placed under the destination as (subdirectory, file name) pairs,
the outcome records emitted so far, and the entries still present in the
source (with their current children, for directories). -/
structure St where
  destDirs : List Name
  destFiles : List (Name × Name)
  records : List OutcomeRecord
  remaining : List Entry
deriving DecidableEq, Repr

/-- Embeds the pattern "if not os.path.exists(d): os.makedirs(d)" of lines
39-40 and 65-66 of src/script/deskSave.py. -/
def addDir (dirs : List Name) (d : Name) : List Name :=
  if d ∈ dirs then dirs else dirs ++ [d]

/-- Embeds the child-moving loop of lines 43-46 of src/script/deskSave.py:
each child of the folder is moved to destination/<folder>/.  shutil.move is
not wrapped in any try block, so a failing child move raises out of the
loop: the error result carries the state so far and the unmoved children. -/
def flattenChildren (err : ErrOracle) (folder : Name) :
    St → List Name → Except (St × List Name) St
  | s, [] => .ok s
  | s, c :: cs =>
    if err.childMoveFails folder c = true then .error (s, c :: cs)
    else
      flattenChildren err folder
        { s with destFiles := s.destFiles ++ [(folder, c)],
                 records := s.records ++ [.folderChildMoved c folder] } cs

/-- Embeds the directory branch of lines 36-53 of src/script/deskSave.py:
create destination/<folder>/ if absent, move every child into it, then try
os.rmdir on the source folder; only the rmdir is guarded by try/except. -/
def processDir (err : ErrOracle) (s : St) (n : Name) (children : List Name) :
    Except St St :=
  let s1 := { s with destDirs := addDir s.destDirs n }
  match flattenChildren err n s1 children with
  | .error (s2, leftover) =>
    .error { s2 with remaining := s2.remaining ++ [.dir n leftover] }
  | .ok s2 =>
    if err.rmdirFails n = true then
      .ok { s2 with records := s2.records ++ [.folderDeleteFailed n],
                    remaining := s2.remaining ++ [.dir n []] }
    else
      .ok { s2 with records := s2.records ++ [.folderDeleted n] }

/-- Embeds the regular-file branch of lines 56-71 of src/script/deskSave.py:
scan the table for the first matching category; on a match create
destination/<category>/ if absent and move the file there (unguarded
shutil.move), then break; on no match do nothing at all. -/
def processFile (ft : List (Name × List Name)) (err : ErrOracle) (s : St)
    (n : Name) : Except St St :=
  match findCategory ft (extOf n) with
  | none => .ok { s with remaining := s.remaining ++ [.file n] }
  | some cat =>
    let s1 := { s with destDirs := addDir s.destDirs cat }
    if err.moveFails n = true then
      .error { s1 with remaining := s1.remaining ++ [.file n] }
    else
      .ok { s1 with destFiles := s1.destFiles ++ [(cat, n)],
                    records := s1.records ++ [.moved n cat] }

/-- Dispatch on the kind of a non-skipped entry: the os.path.isdir branch,
the os.path.isfile branch, or neither (in which case the loop body does
nothing and the entry is left in place). -/
def processKind (ft : List (Name × List Name)) (err : ErrOracle) (s : St) :
    Entry → Except St St
  | .dir n children => processDir err s n children
  | .file n => processFile ft err s n
  | .other n => .ok { s with remaining := s.remaining ++ [.other n] }

/-- Embeds one iteration of the loop of lines 22-71 of src/script/deskSave.py:
first the skip-folder check (line 26), then the skip-file / hidden check
(line 31), then the kind dispatch.  A skipped entry stays in the source and
yields its skip record. -/
def processEntry (ft : List (Name × List Name)) (sf sfo : List Name)
    (err : ErrOracle) (s : St) (e : Entry) : Except St St :=
  if e.isDir = true ∧ e.name ∈ sfo then
    .ok { s with records := s.records ++ [.skippedFolder e.name],
                 remaining := s.remaining ++ [e] }
  else if e.name ∈ sf ∨ startsWithDot e.name = true then
    .ok { s with records := s.records ++ [.skippedFile e.name],
                 remaining := s.remaining ++ [e] }
  else processKind ft err s e

/-- Result of a run: either the loop ran to completion, or an uncaught
exception aborted it, with the state at the moment of the abort. -/
inductive RunResult
  | ok (s : St)
  | aborted (s : St)
deriving DecidableEq, Repr

/-- The loop of move_files over the listed entries.  An exception escaping
one iteration aborts the whole run; the unprocessed entries stay in the
source untouched. -/
def runEntries (ft : List (Name × List Name)) (sf sfo : List Name)
    (err : ErrOracle) : St → List Entry → RunResult
  | s, [] => .ok s
  | s, e :: es =>
    match processEntry ft sf sfo err s e with
    | .ok s1 => runEntries ft sf sfo err s1 es
    | .error s1 => .aborted { s1 with remaining := s1.remaining ++ es }

/-- Embeds move_files of src/script/deskSave.py, lines 16-71: one pass over
the immediate entries of the source, starting from an empty destination. -/
def move_files (ft : List (Name × List Name)) (sf sfo : List Name)
    (err : ErrOracle) (entries : List Entry) : RunResult :=
  runEntries ft sf sfo err ⟨[], [], [], []⟩ entries

/-- State at the end of a run, completed or aborted. -/
def finalSt : RunResult → St
  | .ok s => s
  | .aborted s => s

/-- Whether a run was aborted by an uncaught exception. -/
def isAborted : RunResult → Bool
  | .ok _ => false
  | .aborted _ => true

/-- Modelled from the spec, section 4.1 step 2d: the substring of a name
after its last dot; a name containing no dot yields the whole name. -/
def afterLastDot : Name → Name
  | [] => []
  | c :: cs =>
    if '.' ∈ cs then afterLastDot cs
    else if c = '.' then cs
    else c :: afterLastDot cs

/-- The second state extends the first: every observable field of the run
state only ever grows at the end. -/
def StExt (s t : St) : Prop :=
  (∃ l, t.destDirs = s.destDirs ++ l) ∧ (∃ l, t.destFiles = s.destFiles ++ l) ∧
  (∃ l, t.records = s.records ++ l) ∧ (∃ l, t.remaining = s.remaining ++ l)

/-- The combined skip condition of lines 26 and 31 of src/script/deskSave.py
for one entry: caught by the folder skip list, the file skip list, or the
hidden-name rule. -/
def skipCond (sf sfo : List Name) (e : Entry) : Prop :=
  (e.isDir = true ∧ e.name ∈ sfo) ∨ e.name ∈ sf ∨ startsWithDot e.name = true

/-- Embeds the category order of src/filenames.py, line 1. -/
def order : List Name :=
  [s2l "compressed", s2l "audio", s2l "disc", s2l "data", s2l "email", s2l "executable",
   s2l "font", s2l "pictures", s2l "presentation", s2l "spreadsheet", s2l "text", s2l "video"]

/-- Embeds compressedExtension of src/filenames.py. -/
def compressedExtension : List Name :=
  [s2l "rar", s2l "zip", s2l "7z", s2l "arj", s2l "deb", s2l "pkg", s2l "rpm", s2l "z"]

/-- Embeds audioExtension of src/filenames.py. -/
def audioExtension : List Name :=
  [s2l "aif", s2l "cda", s2l "mid", s2l "midi", s2l "mp3", s2l "mpa", s2l "ogg",
   s2l "wav", s2l "wma", s2l "wpl"]

/-- Embeds discExtension of src/filenames.py. -/
def discExtension : List Name :=
  [s2l "bin", s2l "dmg", s2l "iso", s2l "toast", s2l "vcd"]

/-- Embeds dataExtension of src/filenames.py. -/
def dataExtension : List Name :=
  [s2l "csv", s2l "dat", s2l "db", s2l "dbf", s2l "log", s2l "mdb", s2l "sav",
   s2l "sql", s2l "tar", s2l "xml"]

/-- Embeds emailExtension of src/filenames.py. -/
def emailExtension : List Name :=
  [s2l "email", s2l "eml", s2l "emlx", s2l "msg", s2l "oft", s2l "ost", s2l "pst", s2l "vcf"]

/-- Embeds executableExtension of src/filenames.py. -/
def executableExtension : List Name :=
  [s2l "apk", s2l "bat", s2l "bin", s2l "cgi", s2l "pl", s2l "com", s2l "exe",
   s2l "gadget", s2l "jar", s2l "msi", s2l "py", s2l "wsf"]

/-- Embeds fontExtension of src/filenames.py. -/
def fontExtension : List Name :=
  [s2l "fnt", s2l "fon", s2l "otf", s2l "ttf"]

/-- Embeds pictureExtension of src/filenames.py. -/
def pictureExtension : List Name :=
  [s2l "jpg", s2l "png", s2l "gif", s2l "webp", s2l "tiff", s2l "psd", s2l "raw",
   s2l "bmp", s2l "heif", s2l "indd", s2l "jpeg", s2l "psd", s2l "svg", s2l "ps", s2l "ai"]

/-- Embeds presentationExtension of src/filenames.py. -/
def presentationExtension : List Name :=
  [s2l "key", s2l "odp", s2l "pps", s2l "ppt", s2l "pptx"]

/-- Embeds spreadsheetExtension of src/filenames.py. -/
def spreadsheetExtension : List Name :=
  [s2l "ods", s2l "xls", s2l "xlsm", s2l "xlsx"]

/-- Embeds textExtension of src/filenames.py. -/
def textExtension : List Name :=
  [s2l "doc", s2l "docx", s2l "odt", s2l "pdf", s2l "rtf", s2l "tex", s2l "txt", s2l "wpd"]

/-- Embeds videoExtension of src/filenames.py. -/
def videoExtension : List Name :=
  [s2l "avi", s2l "flv", s2l "h264", s2l "m4v", s2l "mkv", s2l "mov", s2l "mp4",
   s2l "mpg", s2l "wmv"]

/-- The ordered category table of src/filenames.py: each category of order
paired with its extension list, in the iteration order of the scan. -/
def filenamesTable : List (Name × List Name) :=
  [(s2l "compressed", compressedExtension), (s2l "audio", audioExtension),
   (s2l "disc", discExtension), (s2l "data", dataExtension),
   (s2l "email", emailExtension), (s2l "executable", executableExtension),
   (s2l "font", fontExtension), (s2l "pictures", pictureExtension),
   (s2l "presentation", presentationExtension), (s2l "spreadsheet", spreadsheetExtension),
   (s2l "text", textExtension), (s2l "video", videoExtension)]

/-- An oracle in which only the move of the top-level file a.pdf fails. -/
def errPdf : ErrOracle :=
  ⟨fun n => n == s2l "a.pdf", fun _ _ => false, fun _ => false⟩

/-- An oracle in which only the removal of the flattened folder OldStuff fails. -/
def errRmdir : ErrOracle :=
  ⟨fun _ => false, fun _ _ => false, fun n => n == s2l "OldStuff"⟩

theorem StExt.refl (s : St) : StExt s s :=
  ⟨⟨[], by simp⟩, ⟨[], by simp⟩, ⟨[], by simp⟩, ⟨[], by simp⟩⟩

theorem StExt.trans {s t u : St} (h1 : StExt s t) (h2 : StExt t u) : StExt s u := by
  obtain ⟨⟨a1, e1⟩, ⟨a2, e2⟩, ⟨a3, e3⟩, ⟨a4, e4⟩⟩ := h1
  obtain ⟨⟨b1, f1⟩, ⟨b2, f2⟩, ⟨b3, f3⟩, ⟨b4, f4⟩⟩ := h2
  exact ⟨⟨a1 ++ b1, by simp [f1, e1]⟩, ⟨a2 ++ b2, by simp [f2, e2]⟩,
         ⟨a3 ++ b3, by simp [f3, e3]⟩, ⟨a4 ++ b4, by simp [f4, e4]⟩⟩

theorem StExt.mem_destDirs {s t : St} (h : StExt s t) {x : Name}
    (hx : x ∈ s.destDirs) : x ∈ t.destDirs := by
  obtain ⟨⟨l, hl⟩, -, -, -⟩ := h
  simp [hl, hx]

theorem StExt.mem_destFiles {s t : St} (h : StExt s t) {x : Name × Name}
    (hx : x ∈ s.destFiles) : x ∈ t.destFiles := by
  obtain ⟨-, ⟨l, hl⟩, -, -⟩ := h
  simp [hl, hx]

theorem StExt.mem_records {s t : St} (h : StExt s t) {x : OutcomeRecord}
    (hx : x ∈ s.records) : x ∈ t.records := by
  obtain ⟨-, -, ⟨l, hl⟩, -⟩ := h
  simp [hl, hx]

theorem StExt.mem_remaining {s t : St} (h : StExt s t) {x : Entry}
    (hx : x ∈ s.remaining) : x ∈ t.remaining := by
  obtain ⟨-, -, -, ⟨l, hl⟩⟩ := h
  simp [hl, hx]

theorem mem_addDir (dirs : List Name) (d : Name) : d ∈ addDir dirs d := by
  unfold addDir
  split <;> simp_all

theorem mem_of_mem_addDir {dirs : List Name} {d x : Name}
    (h : x ∈ addDir dirs d) : x ∈ dirs ∨ x = d := by
  unfold addDir at h
  split at h <;> simp_all

theorem addDir_ext (dirs : List Name) (d : Name) :
    ∃ l, addDir dirs d = dirs ++ l := by
  unfold addDir
  split
  case isTrue => exact ⟨[], by simp⟩
  case isFalse => exact ⟨[d], rfl⟩

theorem flattenChildren_ok_ext {err : ErrOracle} {n : Name} :
    ∀ {cs : List Name} {s s1 : St},
    flattenChildren err n s cs = .ok s1 → StExt s s1 := by
  intro cs
  induction cs with
  | nil =>
    intro s s1 h
    simp only [flattenChildren] at h
    cases h
    exact StExt.refl s
  | cons c cs ih =>
    intro s s1 h
    simp only [flattenChildren] at h
    split at h
    · cases h
    · refine StExt.trans ?_ (ih h)
      exact ⟨⟨[], by simp⟩, ⟨[(n, c)], rfl⟩, ⟨[.folderChildMoved c n], rfl⟩, ⟨[], by simp⟩⟩

theorem flattenChildren_error_ext {err : ErrOracle} {n : Name} :
    ∀ {cs : List Name} {s s1 : St} {left : List Name},
    flattenChildren err n s cs = .error (s1, left) → StExt s s1 := by
  intro cs
  induction cs with
  | nil =>
    intro s s1 left h
    simp only [flattenChildren] at h
    exact Except.noConfusion h
  | cons c cs ih =>
    intro s s1 left h
    simp only [flattenChildren] at h
    split at h
    · cases h
      exact StExt.refl s
    · refine StExt.trans ?_ (ih h)
      exact ⟨⟨[], by simp⟩, ⟨[(n, c)], rfl⟩, ⟨[.folderChildMoved c n], rfl⟩, ⟨[], by simp⟩⟩

theorem flattenChildren_ok_moved {err : ErrOracle} {n : Name} :
    ∀ {cs : List Name} {s s1 : St},
    flattenChildren err n s cs = .ok s1 → ∀ c ∈ cs, (n, c) ∈ s1.destFiles := by
  intro cs
  induction cs with
  | nil =>
    intro s s1 h c hc
    cases hc
  | cons c0 cs ih =>
    intro s s1 h c hc
    simp only [flattenChildren] at h
    split at h
    · cases h
    · rcases List.mem_cons.mp hc with rfl | hc
      · exact (flattenChildren_ok_ext h).mem_destFiles (by simp)
      · exact ih h c hc

theorem flattenChildren_remaining {err : ErrOracle} {n : Name} :
    ∀ (cs : List Name) (s : St),
    (∀ s1, flattenChildren err n s cs = .ok s1 →
      s1.remaining = s.remaining ∧ s1.destDirs = s.destDirs) ∧
    (∀ s1 left, flattenChildren err n s cs = .error (s1, left) →
      s1.remaining = s.remaining ∧ s1.destDirs = s.destDirs) := by
  intro cs
  induction cs with
  | nil =>
    intro s
    constructor
    · intro s1 h
      simp only [flattenChildren] at h
      cases h
      exact ⟨rfl, rfl⟩
    · intro s1 left h
      simp only [flattenChildren] at h
      exact Except.noConfusion h
  | cons c cs ih =>
    intro s
    constructor
    · intro s1 h
      simp only [flattenChildren] at h
      split at h
      · exact Except.noConfusion h
      · have hh := (ih _).1 s1 h
        exact hh
    · intro s1 left h
      simp only [flattenChildren] at h
      split at h
      · cases h
        exact ⟨rfl, rfl⟩
      · have hh := (ih _).2 s1 left h
        exact hh

theorem flattenChildren_destFiles_origin {err : ErrOracle} {n : Name} :
    ∀ {cs : List Name} {s s1 : St},
    (flattenChildren err n s cs = .ok s1 ∨
      ∃ left, flattenChildren err n s cs = .error (s1, left)) →
    ∀ p ∈ s1.destFiles, p ∈ s.destFiles ∨ ∃ c ∈ cs, p = (n, c) := by
  intro cs
  induction cs with
  | nil =>
    intro s s1 h p hp
    rcases h with h | ⟨left, h⟩
    · simp only [flattenChildren] at h
      cases h
      exact Or.inl hp
    · simp only [flattenChildren] at h
      exact Except.noConfusion h
  | cons c cs ih =>
    intro s s1 h p hp
    rcases h with h | ⟨left, h⟩ <;> simp only [flattenChildren] at h
    · split at h
      · cases h
      · rcases ih (Or.inl h) p hp with hin | ⟨c1, hc1, rfl⟩
        · rcases List.mem_append.mp hin with hin | hin
          · exact Or.inl hin
          · simp only [List.mem_singleton] at hin
            exact Or.inr ⟨c, by simp, hin⟩
        · exact Or.inr ⟨c1, by simp [hc1], rfl⟩
    · split at h
      · cases h
        exact Or.inl hp
      · rcases ih (Or.inr ⟨left, h⟩) p hp with hin | ⟨c1, hc1, rfl⟩
        · rcases List.mem_append.mp hin with hin | hin
          · exact Or.inl hin
          · simp only [List.mem_singleton] at hin
            exact Or.inr ⟨c, by simp, hin⟩
        · exact Or.inr ⟨c1, by simp [hc1], rfl⟩

theorem flattenChildren_records_origin {err : ErrOracle} {n : Name} :
    ∀ {cs : List Name} {s s1 : St},
    (flattenChildren err n s cs = .ok s1 ∨
      ∃ left, flattenChildren err n s cs = .error (s1, left)) →
    ∀ r ∈ s1.records, r ∈ s.records ∨ ∃ c ∈ cs, r = .folderChildMoved c n := by
  intro cs
  induction cs with
  | nil =>
    intro s s1 h r hr
    rcases h with h | ⟨left, h⟩
    · simp only [flattenChildren] at h
      cases h
      exact Or.inl hr
    · simp only [flattenChildren] at h
      exact Except.noConfusion h
  | cons c cs ih =>
    intro s s1 h r hr
    rcases h with h | ⟨left, h⟩ <;> simp only [flattenChildren] at h
    · split at h
      · cases h
      · rcases ih (Or.inl h) r hr with hin | ⟨c1, hc1, rfl⟩
        · rcases List.mem_append.mp hin with hin | hin
          · exact Or.inl hin
          · simp only [List.mem_singleton] at hin
            exact Or.inr ⟨c, by simp, hin⟩
        · exact Or.inr ⟨c1, by simp [hc1], rfl⟩
    · split at h
      · cases h
        exact Or.inl hr
      · rcases ih (Or.inr ⟨left, h⟩) r hr with hin | ⟨c1, hc1, rfl⟩
        · rcases List.mem_append.mp hin with hin | hin
          · exact Or.inl hin
          · simp only [List.mem_singleton] at hin
            exact Or.inr ⟨c, by simp, hin⟩
        · exact Or.inr ⟨c1, by simp [hc1], rfl⟩

theorem processFile_ok_ext {ft : List (Name × List Name)} {err : ErrOracle}
    {s s1 : St} {n : Name} (h : processFile ft err s n = .ok s1) : StExt s s1 := by
  unfold processFile at h
  split at h
  · cases h
    exact ⟨⟨[], by simp⟩, ⟨[], by simp⟩, ⟨[], by simp⟩, ⟨[.file n], rfl⟩⟩
  · split at h
    · exact Except.noConfusion h
    · cases h
      obtain ⟨l, hl⟩ := addDir_ext s.destDirs _
      exact ⟨⟨l, hl⟩, ⟨[(_, n)], rfl⟩, ⟨[.moved n _], rfl⟩, ⟨[], by simp⟩⟩

theorem processFile_error_ext {ft : List (Name × List Name)} {err : ErrOracle}
    {s s1 : St} {n : Name} (h : processFile ft err s n = .error s1) : StExt s s1 := by
  unfold processFile at h
  split at h
  · exact Except.noConfusion h
  · split at h
    · cases h
      obtain ⟨l, hl⟩ := addDir_ext s.destDirs _
      exact ⟨⟨l, hl⟩, ⟨[], by simp⟩, ⟨[], by simp⟩, ⟨[.file n], rfl⟩⟩
    · exact Except.noConfusion h

theorem processDir_eq_error {err : ErrOracle} {s : St} {n : Name}
    {children : List Name} {s2 : St} {left : List Name}
    (hfc : flattenChildren err n { s with destDirs := addDir s.destDirs n } children
      = .error (s2, left)) :
    processDir err s n children
      = .error { s2 with remaining := s2.remaining ++ [.dir n left] } := by
  simp only [processDir]
  rw [hfc]

theorem processDir_eq_ok {err : ErrOracle} {s : St} {n : Name}
    {children : List Name} {s2 : St}
    (hfc : flattenChildren err n { s with destDirs := addDir s.destDirs n } children
      = .ok s2) :
    processDir err s n children
      = (if err.rmdirFails n = true then
          .ok { s2 with records := s2.records ++ [.folderDeleteFailed n],
                        remaining := s2.remaining ++ [.dir n []] }
        else
          .ok { s2 with records := s2.records ++ [.folderDeleted n] }) := by
  simp only [processDir]
  rw [hfc]

theorem addDir_st_ext (s : St) (n : Name) :
    StExt s { s with destDirs := addDir s.destDirs n } := by
  obtain ⟨l, hl⟩ := addDir_ext s.destDirs n
  exact ⟨⟨l, hl⟩, ⟨[], by simp⟩, ⟨[], by simp⟩, ⟨[], by simp⟩⟩

theorem processDir_ok_ext {err : ErrOracle} {s s1 : St} {n : Name}
    {children : List Name} (h : processDir err s n children = .ok s1) : StExt s s1 := by
  cases hfc : flattenChildren err n { s with destDirs := addDir s.destDirs n } children with
  | error p =>
    obtain ⟨s2, left⟩ := p
    rw [processDir_eq_error hfc] at h
    exact Except.noConfusion h
  | ok s2 =>
    rw [processDir_eq_ok hfc] at h
    have hx : StExt s s2 := StExt.trans (addDir_st_ext s n) (flattenChildren_ok_ext hfc)
    split at h
    · cases h
      refine StExt.trans hx ?_
      exact ⟨⟨[], by simp⟩, ⟨[], by simp⟩, ⟨[.folderDeleteFailed n], rfl⟩, ⟨[.dir n []], rfl⟩⟩
    · cases h
      refine StExt.trans hx ?_
      exact ⟨⟨[], by simp⟩, ⟨[], by simp⟩, ⟨[.folderDeleted n], rfl⟩, ⟨[], by simp⟩⟩

theorem processDir_error_ext {err : ErrOracle} {s s1 : St} {n : Name}
    {children : List Name} (h : processDir err s n children = .error s1) : StExt s s1 := by
  cases hfc : flattenChildren err n { s with destDirs := addDir s.destDirs n } children with
  | error p =>
    obtain ⟨s2, left⟩ := p
    rw [processDir_eq_error hfc] at h
    cases h
    refine StExt.trans (StExt.trans (addDir_st_ext s n) (flattenChildren_error_ext hfc)) ?_
    exact ⟨⟨[], by simp⟩, ⟨[], by simp⟩, ⟨[], by simp⟩, ⟨[.dir n left], rfl⟩⟩
  | ok s2 =>
    rw [processDir_eq_ok hfc] at h
    split at h <;> exact Except.noConfusion h

theorem processFile_eq_none {ft : List (Name × List Name)} {err : ErrOracle}
    {s : St} {n : Name} (hfc : findCategory ft (extOf n) = none) :
    processFile ft err s n = .ok { s with remaining := s.remaining ++ [.file n] } := by
  simp only [processFile]
  rw [hfc]

theorem processFile_eq_some {ft : List (Name × List Name)} {err : ErrOracle}
    {s : St} {n : Name} {cat : Name} (hfc : findCategory ft (extOf n) = some cat) :
    processFile ft err s n
      = (if err.moveFails n = true then
          .error { s with destDirs := addDir s.destDirs cat,
                          remaining := s.remaining ++ [.file n] }
        else
          .ok { s with destDirs := addDir s.destDirs cat,
                       destFiles := s.destFiles ++ [(cat, n)],
                       records := s.records ++ [.moved n cat] }) := by
  simp only [processFile]
  rw [hfc]

theorem processEntry_eq_skipFolder {ft : List (Name × List Name)} {sf sfo : List Name}
    {err : ErrOracle} {s : St} {e : Entry} (h1 : e.isDir = true ∧ e.name ∈ sfo) :
    processEntry ft sf sfo err s e
      = .ok { s with records := s.records ++ [.skippedFolder e.name],
                     remaining := s.remaining ++ [e] } := by
  simp only [processEntry, if_pos h1]

theorem processEntry_eq_skipFile {ft : List (Name × List Name)} {sf sfo : List Name}
    {err : ErrOracle} {s : St} {e : Entry} (h1 : ¬(e.isDir = true ∧ e.name ∈ sfo))
    (h2 : e.name ∈ sf ∨ startsWithDot e.name = true) :
    processEntry ft sf sfo err s e
      = .ok { s with records := s.records ++ [.skippedFile e.name],
                     remaining := s.remaining ++ [e] } := by
  simp only [processEntry, if_neg h1, if_pos h2]

theorem processEntry_eq_kind {ft : List (Name × List Name)} {sf sfo : List Name}
    {err : ErrOracle} {s : St} {e : Entry} (h1 : ¬(e.isDir = true ∧ e.name ∈ sfo))
    (h2 : ¬(e.name ∈ sf ∨ startsWithDot e.name = true)) :
    processEntry ft sf sfo err s e = processKind ft err s e := by
  simp only [processEntry, if_neg h1, if_neg h2]

theorem processEntry_ok_ext {ft : List (Name × List Name)} {sf sfo : List Name}
    {err : ErrOracle} {s s1 : St} {e : Entry}
    (h : processEntry ft sf sfo err s e = .ok s1) : StExt s s1 := by
  unfold processEntry at h
  split at h
  · cases h
    exact ⟨⟨[], by simp⟩, ⟨[], by simp⟩, ⟨[.skippedFolder e.name], rfl⟩, ⟨[e], rfl⟩⟩
  · split at h
    · cases h
      exact ⟨⟨[], by simp⟩, ⟨[], by simp⟩, ⟨[.skippedFile e.name], rfl⟩, ⟨[e], rfl⟩⟩
    · cases e with
      | file n => exact processFile_ok_ext h
      | dir n children => exact processDir_ok_ext h
      | other n =>
        cases h
        exact ⟨⟨[], by simp⟩, ⟨[], by simp⟩, ⟨[], by simp⟩, ⟨[.other n], rfl⟩⟩

theorem processEntry_error_ext {ft : List (Name × List Name)} {sf sfo : List Name}
    {err : ErrOracle} {s s1 : St} {e : Entry}
    (h : processEntry ft sf sfo err s e = .error s1) : StExt s s1 := by
  unfold processEntry at h
  split at h
  · exact Except.noConfusion h
  · split at h
    · exact Except.noConfusion h
    · cases e with
      | file n => exact processFile_error_ext h
      | dir n children => exact processDir_error_ext h
      | other n => exact Except.noConfusion h

theorem processEntry_destFiles_origin {ft : List (Name × List Name)}
    {sf sfo : List Name} {err : ErrOracle} {s s1 : St} {e : Entry}
    (h : processEntry ft sf sfo err s e = .ok s1 ∨
      processEntry ft sf sfo err s e = .error s1) :
    ∀ p ∈ s1.destFiles, p ∈ s.destFiles
      ∨ (∃ n l c, e = .dir n l ∧ c ∈ l ∧ p = (n, c))
      ∨ (∃ n cat, e = .file n ∧ findCategory ft (extOf n) = some cat ∧ p = (cat, n)) := by
  intro p hp
  by_cases h1 : e.isDir = true ∧ e.name ∈ sfo
  · rw [processEntry_eq_skipFolder h1] at h
    rcases h with h | h
    · cases h
      exact Or.inl hp
    · exact Except.noConfusion h
  · by_cases h2 : e.name ∈ sf ∨ startsWithDot e.name = true
    · rw [processEntry_eq_skipFile h1 h2] at h
      rcases h with h | h
      · cases h
        exact Or.inl hp
      · exact Except.noConfusion h
    · rw [processEntry_eq_kind h1 h2] at h
      cases e with
      | file n =>
        simp only [processKind] at h
        cases hfc : findCategory ft (extOf n) with
        | none =>
          rw [processFile_eq_none hfc] at h
          rcases h with h | h
          · cases h
            exact Or.inl hp
          · exact Except.noConfusion h
        | some cat =>
          rw [processFile_eq_some hfc] at h
          rcases h with h | h <;> split at h <;> try exact Except.noConfusion h
          · cases h
            rcases List.mem_append.mp hp with hin | hin
            · exact Or.inl hin
            · simp only [List.mem_singleton] at hin
              exact Or.inr (Or.inr ⟨n, cat, rfl, hfc, hin⟩)
          · cases h
            exact Or.inl hp
      | dir n l =>
        simp only [processKind] at h
        cases hfc : flattenChildren err n { s with destDirs := addDir s.destDirs n } l with
        | error pr =>
          obtain ⟨s2, left⟩ := pr
          rw [processDir_eq_error hfc] at h
          rcases h with h | h
          · exact Except.noConfusion h
          · cases h
            rcases flattenChildren_destFiles_origin (Or.inr ⟨left, hfc⟩) p hp with hin | hex
            · exact Or.inl hin
            · obtain ⟨c, hc, rfl⟩ := hex
              exact Or.inr (Or.inl ⟨n, l, c, rfl, hc, rfl⟩)
        | ok s2 =>
          rw [processDir_eq_ok hfc] at h
          rcases h with h | h <;> split at h <;> try exact Except.noConfusion h
          all_goals cases h
          all_goals
            rcases flattenChildren_destFiles_origin (Or.inl hfc) p hp with hin | hex
          · exact Or.inl hin
          · obtain ⟨c, hc, rfl⟩ := hex
            exact Or.inr (Or.inl ⟨n, l, c, rfl, hc, rfl⟩)
          · exact Or.inl hin
          · obtain ⟨c, hc, rfl⟩ := hex
            exact Or.inr (Or.inl ⟨n, l, c, rfl, hc, rfl⟩)
      | other n =>
        simp only [processKind] at h
        rcases h with h | h
        · cases h
          exact Or.inl hp
        · exact Except.noConfusion h

theorem processEntry_records_origin {ft : List (Name × List Name)}
    {sf sfo : List Name} {err : ErrOracle} {s s1 : St} {e : Entry}
    (h : processEntry ft sf sfo err s e = .ok s1 ∨
      processEntry ft sf sfo err s e = .error s1) :
    ∀ r ∈ s1.records, r ∈ s.records
      ∨ (r = .skippedFolder e.name ∧ e.isDir = true ∧ e.name ∈ sfo)
      ∨ (r = .skippedFile e.name ∧ (e.name ∈ sf ∨ startsWithDot e.name = true))
      ∨ (∃ n l c, e = .dir n l ∧ c ∈ l ∧ r = .folderChildMoved c n)
      ∨ (∃ n l, e = .dir n l ∧ (r = .folderDeleted n ∨ r = .folderDeleteFailed n))
      ∨ (∃ n cat, e = .file n ∧ findCategory ft (extOf n) = some cat ∧ r = .moved n cat) := by
  intro r hr
  by_cases h1 : e.isDir = true ∧ e.name ∈ sfo
  · rw [processEntry_eq_skipFolder h1] at h
    rcases h with h | h
    · cases h
      rcases List.mem_append.mp hr with hin | hin
      · exact Or.inl hin
      · simp only [List.mem_singleton] at hin
        exact Or.inr (Or.inl ⟨hin, h1⟩)
    · exact Except.noConfusion h
  · by_cases h2 : e.name ∈ sf ∨ startsWithDot e.name = true
    · rw [processEntry_eq_skipFile h1 h2] at h
      rcases h with h | h
      · cases h
        rcases List.mem_append.mp hr with hin | hin
        · exact Or.inl hin
        · simp only [List.mem_singleton] at hin
          exact Or.inr (Or.inr (Or.inl ⟨hin, h2⟩))
      · exact Except.noConfusion h
    · rw [processEntry_eq_kind h1 h2] at h
      cases e with
      | file n =>
        simp only [processKind] at h
        cases hfc : findCategory ft (extOf n) with
        | none =>
          rw [processFile_eq_none hfc] at h
          rcases h with h | h
          · cases h
            exact Or.inl hr
          · exact Except.noConfusion h
        | some cat =>
          rw [processFile_eq_some hfc] at h
          rcases h with h | h <;> split at h <;> try exact Except.noConfusion h
          · cases h
            rcases List.mem_append.mp hr with hin | hin
            · exact Or.inl hin
            · simp only [List.mem_singleton] at hin
              exact Or.inr (Or.inr (Or.inr (Or.inr (Or.inr ⟨n, cat, rfl, hfc, hin⟩))))
          · cases h
            exact Or.inl hr
      | dir n l =>
        simp only [processKind] at h
        cases hfc : flattenChildren err n { s with destDirs := addDir s.destDirs n } l with
        | error pr =>
          obtain ⟨s2, left⟩ := pr
          rw [processDir_eq_error hfc] at h
          rcases h with h | h
          · exact Except.noConfusion h
          · cases h
            rcases flattenChildren_records_origin (Or.inr ⟨left, hfc⟩) r hr with hin | hex
            · exact Or.inl hin
            · obtain ⟨c, hc, rfl⟩ := hex
              exact Or.inr (Or.inr (Or.inr (Or.inl ⟨n, l, c, rfl, hc, rfl⟩)))
        | ok s2 =>
          rw [processDir_eq_ok hfc] at h
          rcases h with h | h <;> split at h <;> try exact Except.noConfusion h
          · cases h
            rcases List.mem_append.mp hr with hin | hin
            · rcases flattenChildren_records_origin (Or.inl hfc) r hin with hin2 | hex
              · exact Or.inl hin2
              · obtain ⟨c, hc, rfl⟩ := hex
                exact Or.inr (Or.inr (Or.inr (Or.inl ⟨n, l, c, rfl, hc, rfl⟩)))
            · simp only [List.mem_singleton] at hin
              exact Or.inr (Or.inr (Or.inr (Or.inr (Or.inl ⟨n, l, rfl, Or.inr hin⟩))))
          · cases h
            rcases List.mem_append.mp hr with hin | hin
            · rcases flattenChildren_records_origin (Or.inl hfc) r hin with hin2 | hex
              · exact Or.inl hin2
              · obtain ⟨c, hc, rfl⟩ := hex
                exact Or.inr (Or.inr (Or.inr (Or.inl ⟨n, l, c, rfl, hc, rfl⟩)))
            · simp only [List.mem_singleton] at hin
              exact Or.inr (Or.inr (Or.inr (Or.inr (Or.inl ⟨n, l, rfl, Or.inl hin⟩))))
      | other n =>
        simp only [processKind] at h
        rcases h with h | h
        · cases h
          exact Or.inl hr
        · exact Except.noConfusion h

theorem processEntry_destDirs_origin {ft : List (Name × List Name)}
    {sf sfo : List Name} {err : ErrOracle} {s s1 : St} {e : Entry}
    (h : processEntry ft sf sfo err s e = .ok s1 ∨
      processEntry ft sf sfo err s e = .error s1) :
    ∀ d ∈ s1.destDirs, d ∈ s.destDirs
      ∨ (∃ l, e = .dir d l ∧ d ∉ sfo ∧ d ∉ sf ∧ startsWithDot d = false)
      ∨ (∃ n, e = .file n ∧ n ∉ sf ∧ startsWithDot n = false ∧
          findCategory ft (extOf n) = some d) := by
  intro d hd
  by_cases h1 : e.isDir = true ∧ e.name ∈ sfo
  · rw [processEntry_eq_skipFolder h1] at h
    rcases h with h | h
    · cases h
      exact Or.inl hd
    · exact Except.noConfusion h
  · by_cases h2 : e.name ∈ sf ∨ startsWithDot e.name = true
    · rw [processEntry_eq_skipFile h1 h2] at h
      rcases h with h | h
      · cases h
        exact Or.inl hd
      · exact Except.noConfusion h
    · rw [processEntry_eq_kind h1 h2] at h
      cases e with
      | file n =>
        have hn1 : n ∉ sf := fun hh => h2 (Or.inl hh)
        have hn2 : startsWithDot n = false := by
          cases hst : startsWithDot n
          · rfl
          · exact absurd (Or.inr hst) h2
        simp only [processKind] at h
        cases hfc : findCategory ft (extOf n) with
        | none =>
          rw [processFile_eq_none hfc] at h
          rcases h with h | h
          · cases h
            exact Or.inl hd
          · exact Except.noConfusion h
        | some cat =>
          rw [processFile_eq_some hfc] at h
          rcases h with h | h <;> split at h <;> try exact Except.noConfusion h
          · cases h
            rcases mem_of_mem_addDir hd with hin | rfl
            · exact Or.inl hin
            · exact Or.inr (Or.inr ⟨n, rfl, hn1, hn2, hfc⟩)
          · cases h
            rcases mem_of_mem_addDir hd with hin | rfl
            · exact Or.inl hin
            · exact Or.inr (Or.inr ⟨n, rfl, hn1, hn2, hfc⟩)
      | dir n l =>
        have hn0 : n ∉ sfo := fun hh => h1 ⟨rfl, hh⟩
        have hn1 : n ∉ sf := fun hh => h2 (Or.inl hh)
        have hn2 : startsWithDot n = false := by
          cases hst : startsWithDot n
          · rfl
          · exact absurd (Or.inr hst) h2
        simp only [processKind] at h
        cases hfc : flattenChildren err n { s with destDirs := addDir s.destDirs n } l with
        | error pr =>
          obtain ⟨s2, left⟩ := pr
          rw [processDir_eq_error hfc] at h
          rcases h with h | h
          · exact Except.noConfusion h
          · cases h
            have hdd := ((flattenChildren_remaining l _).2 s2 left hfc).2
            rw [hdd] at hd
            rcases mem_of_mem_addDir hd with hin | rfl
            · exact Or.inl hin
            · exact Or.inr (Or.inl ⟨l, rfl, hn0, hn1, hn2⟩)
        | ok s2 =>
          rw [processDir_eq_ok hfc] at h
          have hdd := ((flattenChildren_remaining l _).1 s2 hfc).2
          rcases h with h | h <;> split at h <;> try exact Except.noConfusion h
          · cases h
            rw [hdd] at hd
            rcases mem_of_mem_addDir hd with hin | rfl
            · exact Or.inl hin
            · exact Or.inr (Or.inl ⟨l, rfl, hn0, hn1, hn2⟩)
          · cases h
            rw [hdd] at hd
            rcases mem_of_mem_addDir hd with hin | rfl
            · exact Or.inl hin
            · exact Or.inr (Or.inl ⟨l, rfl, hn0, hn1, hn2⟩)
      | other n =>
        simp only [processKind] at h
        rcases h with h | h
        · cases h
          exact Or.inl hd
        · exact Except.noConfusion h

theorem processEntry_ok_remaining_origin {ft : List (Name × List Name)}
    {sf sfo : List Name} {err : ErrOracle} {s s1 : St} {e : Entry}
    (h : processEntry ft sf sfo err s e = .ok s1) :
    ∀ x ∈ s1.remaining, x ∈ s.remaining
      ∨ (x = e ∧ skipCond sf sfo e)
      ∨ (∃ n, x = e ∧ e = .file n ∧ findCategory ft (extOf n) = none)
      ∨ (∃ n, x = e ∧ e = .other n)
      ∨ (∃ n l, e = .dir n l ∧ err.rmdirFails n = true ∧ x = .dir n []) := by
  intro x hx
  by_cases h1 : e.isDir = true ∧ e.name ∈ sfo
  · rw [processEntry_eq_skipFolder h1] at h
    cases h
    rcases List.mem_append.mp hx with hin | hin
    · exact Or.inl hin
    · simp only [List.mem_singleton] at hin
      exact Or.inr (Or.inl ⟨hin, Or.inl h1⟩)
  · by_cases h2 : e.name ∈ sf ∨ startsWithDot e.name = true
    · rw [processEntry_eq_skipFile h1 h2] at h
      cases h
      rcases List.mem_append.mp hx with hin | hin
      · exact Or.inl hin
      · simp only [List.mem_singleton] at hin
        exact Or.inr (Or.inl ⟨hin, Or.inr h2⟩)
    · rw [processEntry_eq_kind h1 h2] at h
      cases e with
      | file n =>
        simp only [processKind] at h
        cases hfc : findCategory ft (extOf n) with
        | none =>
          rw [processFile_eq_none hfc] at h
          cases h
          rcases List.mem_append.mp hx with hin | hin
          · exact Or.inl hin
          · simp only [List.mem_singleton] at hin
            exact Or.inr (Or.inr (Or.inl ⟨n, hin, rfl, hfc⟩))
        | some cat =>
          rw [processFile_eq_some hfc] at h
          split at h
          · exact Except.noConfusion h
          · cases h
            exact Or.inl hx
      | dir n l =>
        simp only [processKind] at h
        cases hfc : flattenChildren err n { s with destDirs := addDir s.destDirs n } l with
        | error pr =>
          obtain ⟨s2, left⟩ := pr
          rw [processDir_eq_error hfc] at h
          exact Except.noConfusion h
        | ok s2 =>
          rw [processDir_eq_ok hfc] at h
          have hrem := ((flattenChildren_remaining l _).1 s2 hfc).1
          split at h
          next hrm =>
            cases h
            rw [hrem] at hx
            rcases List.mem_append.mp hx with hin | hin
            · exact Or.inl hin
            · simp only [List.mem_singleton] at hin
              exact Or.inr (Or.inr (Or.inr (Or.inr ⟨n, l, rfl, hrm, hin⟩)))
          next hrm =>
            cases h
            rw [hrem] at hx
            exact Or.inl hx
      | other n =>
        simp only [processKind] at h
        cases h
        rcases List.mem_append.mp hx with hin | hin
        · exact Or.inl hin
        · simp only [List.mem_singleton] at hin
          exact Or.inr (Or.inr (Or.inr (Or.inl ⟨n, hin, rfl⟩)))

theorem processEntry_error_remaining_origin {ft : List (Name × List Name)}
    {sf sfo : List Name} {err : ErrOracle} {s s1 : St} {e : Entry}
    (h : processEntry ft sf sfo err s e = .error s1) :
    ∀ x ∈ s1.remaining, x ∈ s.remaining
      ∨ (∃ n l l1, e = .dir n l ∧ x = .dir n l1)
      ∨ (∃ n, x = e ∧ e = .file n) := by
  intro x hx
  by_cases h1 : e.isDir = true ∧ e.name ∈ sfo
  · rw [processEntry_eq_skipFolder h1] at h
    exact Except.noConfusion h
  · by_cases h2 : e.name ∈ sf ∨ startsWithDot e.name = true
    · rw [processEntry_eq_skipFile h1 h2] at h
      exact Except.noConfusion h
    · rw [processEntry_eq_kind h1 h2] at h
      cases e with
      | file n =>
        simp only [processKind] at h
        cases hfc : findCategory ft (extOf n) with
        | none =>
          rw [processFile_eq_none hfc] at h
          exact Except.noConfusion h
        | some cat =>
          rw [processFile_eq_some hfc] at h
          split at h
          · cases h
            rcases List.mem_append.mp hx with hin | hin
            · exact Or.inl hin
            · simp only [List.mem_singleton] at hin
              exact Or.inr (Or.inr ⟨n, hin, rfl⟩)
          · exact Except.noConfusion h
      | dir n l =>
        simp only [processKind] at h
        cases hfc : flattenChildren err n { s with destDirs := addDir s.destDirs n } l with
        | error pr =>
          obtain ⟨s2, left⟩ := pr
          rw [processDir_eq_error hfc] at h
          cases h
          have hrem := ((flattenChildren_remaining l _).2 s2 left hfc).1
          rw [hrem] at hx
          rcases List.mem_append.mp hx with hin | hin
          · exact Or.inl hin
          · simp only [List.mem_singleton] at hin
            exact Or.inr (Or.inl ⟨n, l, left, rfl, hin⟩)
        | ok s2 =>
          rw [processDir_eq_ok hfc] at h
          split at h <;> exact Except.noConfusion h
      | other n =>
        simp only [processKind] at h
        exact Except.noConfusion h

theorem runEntries_ext {ft : List (Name × List Name)} {sf sfo : List Name}
    {err : ErrOracle} :
    ∀ {es : List Entry} {s : St},
    StExt s (finalSt (runEntries ft sf sfo err s es)) := by
  intro es
  induction es with
  | nil =>
    intro s
    exact StExt.refl s
  | cons e es ih =>
    intro s
    simp only [runEntries]
    split
    case h_1 s1 heq =>
      exact StExt.trans (processEntry_ok_ext heq) ih
    case h_2 s1 heq =>
      refine StExt.trans (processEntry_error_ext heq) ?_
      exact ⟨⟨[], by simp [finalSt]⟩, ⟨[], by simp [finalSt]⟩, ⟨[], by simp [finalSt]⟩,
        ⟨es, by simp [finalSt]⟩⟩

theorem runEntries_destFiles_origin {ft : List (Name × List Name)} {sf sfo : List Name}
    {err : ErrOracle} :
    ∀ (es : List Entry) (s : St),
    ∀ p ∈ (finalSt (runEntries ft sf sfo err s es)).destFiles,
    p ∈ s.destFiles ∨ ∃ e ∈ es,
      (∃ n l c, e = .dir n l ∧ c ∈ l ∧ p = (n, c))
      ∨ (∃ n cat, e = .file n ∧ findCategory ft (extOf n) = some cat ∧ p = (cat, n)) := by
  intro es
  induction es with
  | nil =>
    intro s p hp
    exact Or.inl hp
  | cons e es ih =>
    intro s p hp
    simp only [runEntries] at hp
    rcases heq : processEntry ft sf sfo err s e with s1 | s1 <;> rw [heq] at hp
    · simp only [finalSt] at hp
      rcases processEntry_destFiles_origin (Or.inr heq) p hp with hin | hor
      · exact Or.inl hin
      · exact Or.inr ⟨e, by simp, hor⟩
    · rcases ih s1 p hp with hin | ⟨e1, he1, hor⟩
      · rcases processEntry_destFiles_origin (Or.inl heq) p hin with hin2 | hor
        · exact Or.inl hin2
        · exact Or.inr ⟨e, by simp, hor⟩
      · exact Or.inr ⟨e1, by simp [he1], hor⟩

theorem runEntries_records_origin {ft : List (Name × List Name)} {sf sfo : List Name}
    {err : ErrOracle} :
    ∀ (es : List Entry) (s : St),
    ∀ r ∈ (finalSt (runEntries ft sf sfo err s es)).records,
    r ∈ s.records ∨ ∃ e ∈ es,
      (r = .skippedFolder e.name ∧ e.isDir = true ∧ e.name ∈ sfo)
      ∨ (r = .skippedFile e.name ∧ (e.name ∈ sf ∨ startsWithDot e.name = true))
      ∨ (∃ n l c, e = .dir n l ∧ c ∈ l ∧ r = .folderChildMoved c n)
      ∨ (∃ n l, e = .dir n l ∧ (r = .folderDeleted n ∨ r = .folderDeleteFailed n))
      ∨ (∃ n cat, e = .file n ∧ findCategory ft (extOf n) = some cat ∧ r = .moved n cat) := by
  intro es
  induction es with
  | nil =>
    intro s r hr
    exact Or.inl hr
  | cons e es ih =>
    intro s r hr
    simp only [runEntries] at hr
    rcases heq : processEntry ft sf sfo err s e with s1 | s1 <;> rw [heq] at hr
    · simp only [finalSt] at hr
      rcases processEntry_records_origin (Or.inr heq) r hr with hin | hor
      · exact Or.inl hin
      · exact Or.inr ⟨e, by simp, hor⟩
    · rcases ih s1 r hr with hin | ⟨e1, he1, hor⟩
      · rcases processEntry_records_origin (Or.inl heq) r hin with hin2 | hor
        · exact Or.inl hin2
        · exact Or.inr ⟨e, by simp, hor⟩
      · exact Or.inr ⟨e1, by simp [he1], hor⟩

theorem runEntries_destDirs_origin {ft : List (Name × List Name)} {sf sfo : List Name}
    {err : ErrOracle} :
    ∀ (es : List Entry) (s : St),
    ∀ d ∈ (finalSt (runEntries ft sf sfo err s es)).destDirs,
    d ∈ s.destDirs ∨ ∃ e ∈ es,
      (∃ l, e = .dir d l ∧ d ∉ sfo ∧ d ∉ sf ∧ startsWithDot d = false)
      ∨ (∃ n, e = .file n ∧ n ∉ sf ∧ startsWithDot n = false ∧
          findCategory ft (extOf n) = some d) := by
  intro es
  induction es with
  | nil =>
    intro s d hd
    exact Or.inl hd
  | cons e es ih =>
    intro s d hd
    simp only [runEntries] at hd
    rcases heq : processEntry ft sf sfo err s e with s1 | s1 <;> rw [heq] at hd
    · simp only [finalSt] at hd
      rcases processEntry_destDirs_origin (Or.inr heq) d hd with hin | hor
      · exact Or.inl hin
      · exact Or.inr ⟨e, by simp, hor⟩
    · rcases ih s1 d hd with hin | ⟨e1, he1, hor⟩
      · rcases processEntry_destDirs_origin (Or.inl heq) d hin with hin2 | hor
        · exact Or.inl hin2
        · exact Or.inr ⟨e, by simp, hor⟩
      · exact Or.inr ⟨e1, by simp [he1], hor⟩

theorem runEntries_ok_remaining_origin {ft : List (Name × List Name)} {sf sfo : List Name}
    {err : ErrOracle} :
    ∀ (es : List Entry) (s s1 : St), runEntries ft sf sfo err s es = .ok s1 →
    ∀ x ∈ s1.remaining, x ∈ s.remaining ∨ ∃ e ∈ es,
      (x = e ∧ skipCond sf sfo e)
      ∨ (∃ n, x = e ∧ e = .file n ∧ findCategory ft (extOf n) = none)
      ∨ (∃ n, x = e ∧ e = .other n)
      ∨ (∃ n l, e = .dir n l ∧ err.rmdirFails n = true ∧ x = .dir n []) := by
  intro es
  induction es with
  | nil =>
    intro s s1 h x hx
    cases h
    exact Or.inl hx
  | cons e es ih =>
    intro s s1 h x hx
    simp only [runEntries] at h
    rcases heq : processEntry ft sf sfo err s e with s2 | s2 <;> rw [heq] at h
    · exact RunResult.noConfusion h
    · rcases ih s2 s1 h x hx with hin | ⟨e1, he1, hor⟩
      · rcases processEntry_ok_remaining_origin heq x hin with hin2 | hor
        · exact Or.inl hin2
        · exact Or.inr ⟨e, by simp, hor⟩
      · exact Or.inr ⟨e1, by simp [he1], hor⟩

theorem runEntries_preserved {ft : List (Name × List Name)} {sf sfo : List Name}
    {err : ErrOracle} {e : Entry}
    (hkind : ∀ s : St, ∃ s1, processEntry ft sf sfo err s e = .ok s1 ∧ e ∈ s1.remaining) :
    ∀ (es : List Entry) (s : St), e ∈ es →
    e ∈ (finalSt (runEntries ft sf sfo err s es)).remaining := by
  intro es
  induction es with
  | nil =>
    intro s hmem
    cases hmem
  | cons e0 es ih =>
    intro s hmem
    simp only [runEntries]
    rcases List.mem_cons.mp hmem with rfl | hmem
    · obtain ⟨s1, hs1, hin⟩ := hkind s
      rw [hs1]
      exact (runEntries_ext).mem_remaining hin
    · rcases heq : processEntry ft sf sfo err s e0 with s1 | s1
      · simp only [finalSt]
        simp [hmem]
      · exact ih s1 hmem

theorem runEntries_ok_extSt {ft : List (Name × List Name)} {sf sfo : List Name}
    {err : ErrOracle} {es : List Entry} {t s1 : St}
    (h : runEntries ft sf sfo err t es = .ok s1) : StExt t s1 := by
  have hx := @runEntries_ext ft sf sfo err es t
  rw [h] at hx
  exact hx

theorem runEntries_ok_file_effect {ft : List (Name × List Name)} {sf sfo : List Name}
    {err : ErrOracle} {fn cat : Name}
    (hsf : fn ∉ sf) (hdot : startsWithDot fn = false)
    (hfc : findCategory ft (extOf fn) = some cat) :
    ∀ (es : List Entry) (s s1 : St), runEntries ft sf sfo err s es = .ok s1 →
    Entry.file fn ∈ es →
    (cat, fn) ∈ s1.destFiles ∧ cat ∈ s1.destDirs ∧ .moved fn cat ∈ s1.records := by
  have hskip1 : ¬((Entry.file fn).isDir = true ∧ (Entry.file fn).name ∈ sfo) := by
    simp [Entry.isDir]
  have hskip2 : ¬((Entry.file fn).name ∈ sf ∨ startsWithDot (Entry.file fn).name = true) := by
    simp [Entry.name, hdot]
    exact hsf
  intro es
  induction es with
  | nil =>
    intro s s1 h hmem
    cases hmem
  | cons e0 es ih =>
    intro s s1 h hmem
    simp only [runEntries] at h
    rcases List.mem_cons.mp hmem with rfl | hmem
    · rw [processEntry_eq_kind hskip1 hskip2] at h
      simp only [processKind] at h
      rw [processFile_eq_some hfc] at h
      cases hmf : err.moveFails fn with
      | true =>
        rw [hmf] at h
        exact RunResult.noConfusion h
      | false =>
        rw [hmf] at h
        have hext := runEntries_ok_extSt h
        refine ⟨hext.mem_destFiles (by simp), hext.mem_destDirs ?_, hext.mem_records (by simp)⟩
        exact mem_addDir s.destDirs cat
    · rcases heq : processEntry ft sf sfo err s e0 with s2 | s2 <;> rw [heq] at h
      · exact RunResult.noConfusion h
      · exact ih s2 s1 h hmem

theorem runEntries_ok_dir_effect {ft : List (Name × List Name)} {sf sfo : List Name}
    {err : ErrOracle} {dn : Name} {children : List Name}
    (hsfo : dn ∉ sfo) (hsf : dn ∉ sf) (hdot : startsWithDot dn = false) :
    ∀ (es : List Entry) (s s1 : St), runEntries ft sf sfo err s es = .ok s1 →
    Entry.dir dn children ∈ es →
    (∀ c ∈ children, (dn, c) ∈ s1.destFiles) ∧ dn ∈ s1.destDirs ∧
    (err.rmdirFails dn = true →
      Entry.dir dn [] ∈ s1.remaining ∧ .folderDeleteFailed dn ∈ s1.records) ∧
    (err.rmdirFails dn = false → .folderDeleted dn ∈ s1.records) := by
  have hskip1 : ¬((Entry.dir dn children).isDir = true ∧ (Entry.dir dn children).name ∈ sfo) := by
    simp [Entry.isDir, Entry.name]
    exact hsfo
  have hskip2 : ¬((Entry.dir dn children).name ∈ sf ∨
      startsWithDot (Entry.dir dn children).name = true) := by
    simp [Entry.name, hdot]
    exact hsf
  intro es
  induction es with
  | nil =>
    intro s s1 h hmem
    cases hmem
  | cons e0 es ih =>
    intro s s1 h hmem
    simp only [runEntries] at h
    rcases List.mem_cons.mp hmem with rfl | hmem
    · rw [processEntry_eq_kind hskip1 hskip2] at h
      simp only [processKind] at h
      cases hfc : flattenChildren err dn
          { s with destDirs := addDir s.destDirs dn } children with
      | error pr =>
        obtain ⟨s2, left⟩ := pr
        rw [processDir_eq_error hfc] at h
        exact RunResult.noConfusion h
      | ok s2 =>
        rw [processDir_eq_ok hfc] at h
        have hmoved := flattenChildren_ok_moved hfc
        have hdirs := ((flattenChildren_remaining children _).1 s2 hfc).2
        have hdn : dn ∈ s2.destDirs := by
          rw [hdirs]
          exact mem_addDir s.destDirs dn
        cases hrm : err.rmdirFails dn with
        | true =>
          rw [hrm] at h
          have hext := runEntries_ok_extSt h
          refine ⟨fun c hc => hext.mem_destFiles (hmoved c hc),
            hext.mem_destDirs hdn, fun _ => ⟨hext.mem_remaining (by simp),
              hext.mem_records (by simp)⟩, ?_⟩
          intro hrf
          exact Bool.noConfusion hrf
        | false =>
          rw [hrm] at h
          have hext := runEntries_ok_extSt h
          refine ⟨fun c hc => hext.mem_destFiles (hmoved c hc),
            hext.mem_destDirs hdn, ?_, fun _ => hext.mem_records (by simp)⟩
          intro hrf
          exact Bool.noConfusion hrf
    · rcases heq : processEntry ft sf sfo err s e0 with s2 | s2 <;> rw [heq] at h
      · exact RunResult.noConfusion h
      · exact ih s2 s1 h hmem

theorem getLastD_congr {α : Type} (l : List α) (a b : α) (h : l ≠ []) :
    l.getLastD a = l.getLastD b := by
  cases l with
  | nil => exact absurd rfl h
  | cons x xs => rw [List.getLastD_cons, List.getLastD_cons]

theorem splitDot_ne_nil (cs : Name) : splitDot cs ≠ [] := by
  cases cs with
  | nil => simp [splitDot]
  | cons c cs =>
    simp only [splitDot]
    split
    · simp
    · split <;> simp

theorem no_dot_splitDot : ∀ {cs : Name}, '.' ∉ cs → splitDot cs = [cs] := by
  intro cs
  induction cs with
  | nil => intro; rfl
  | cons c cs ih =>
    intro h
    have hc : ¬(c = '.') := fun hv => h (by simp [hv])
    have hcs : '.' ∉ cs := fun hv => h (by simp [hv])
    simp only [splitDot, if_neg hc, ih hcs]

theorem dot_splitDot_len : ∀ {cs : Name}, '.' ∈ cs → 2 ≤ (splitDot cs).length := by
  intro cs
  induction cs with
  | nil => intro h; cases h
  | cons c cs ih =>
    intro h
    by_cases hc : c = '.'
    · simp only [splitDot, if_pos hc, List.length_cons]
      have := splitDot_ne_nil cs
      have : 1 ≤ (splitDot cs).length := by
        cases hsp : splitDot cs with
        | nil => exact absurd hsp this
        | cons x xs => simp
      omega
    · have hcs : '.' ∈ cs := by
        rcases List.mem_cons.mp h with hv | hv
        · exact absurd hv.symm hc
        · exact hv
      simp only [splitDot, if_neg hc]
      cases hsp : splitDot cs with
      | nil => exact absurd hsp (splitDot_ne_nil cs)
      | cons s ss =>
        have := ih hcs
        rw [hsp] at this
        simpa using this

theorem splitDot_cons_dot (cs : Name) : splitDot ('.' :: cs) = [] :: splitDot cs := by
  simp [splitDot]

theorem splitDot_cons_ne {c : Char} (hc : ¬c = '.') (cs : Name) :
    splitDot (c :: cs)
      = (match splitDot cs with
          | [] => [[c]]
          | s :: ss => (c :: s) :: ss) := by
  simp [splitDot, hc]

theorem afterLastDot_mem {c : Char} {cs : Name} (h : '.' ∈ cs) :
    afterLastDot (c :: cs) = afterLastDot cs := by
  simp [afterLastDot, h]

theorem afterLastDot_dot_head {cs : Name} (h : '.' ∉ cs) :
    afterLastDot ('.' :: cs) = cs := by
  simp [afterLastDot, h]

theorem afterLastDot_no_dot {c : Char} {cs : Name} (h1 : '.' ∉ cs) (h2 : ¬c = '.') :
    afterLastDot (c :: cs) = c :: afterLastDot cs := by
  simp [afterLastDot, h1, h2]

theorem splitDot_getLastD : ∀ (cs : Name), (splitDot cs).getLastD [] = afterLastDot cs := by
  intro cs
  induction cs with
  | nil => rfl
  | cons c cs ih =>
    by_cases hc : c = '.'
    · subst hc
      rw [splitDot_cons_dot, List.getLastD_cons,
        getLastD_congr (splitDot cs) [] [] (splitDot_ne_nil cs), ih]
      by_cases hdot : '.' ∈ cs
      · rw [afterLastDot_mem hdot]
      · rw [afterLastDot_dot_head hdot]
        have h2 := no_dot_splitDot hdot
        rw [h2] at ih
        simp only [List.getLastD_cons] at ih
        exact ih.symm
    · rw [splitDot_cons_ne hc]
      cases hsp : splitDot cs with
      | nil => exact absurd hsp (splitDot_ne_nil cs)
      | cons s ss =>
        cases ss with
        | nil =>
          have hnd : '.' ∉ cs := by
            intro hdot
            have hlen := dot_splitDot_len hdot
            rw [hsp] at hlen
            simp at hlen
          have hscs : s = cs := by
            have h2 := no_dot_splitDot hnd
            rw [hsp] at h2
            simpa using h2
          have hcs2 : afterLastDot cs = cs := by
            rw [← ih, hsp, hscs]
            rfl
          rw [afterLastDot_no_dot hnd hc, hcs2, hscs]
          rfl
        | cons s1 ss1 =>
          have hdot : '.' ∈ cs := by
            by_contra hnd
            have h2 := no_dot_splitDot hnd
            rw [hsp] at h2
            simp at h2
          rw [afterLastDot_mem hdot, ← ih, hsp]
          simp only [List.getLastD_cons]

theorem runEntries_cons_ok {ft : List (Name × List Name)} {sf sfo : List Name}
    {err : ErrOracle} {s s1 : St} {e : Entry} {es : List Entry}
    (heq : processEntry ft sf sfo err s e = .ok s1) :
    runEntries ft sf sfo err s (e :: es) = runEntries ft sf sfo err s1 es := by
  simp only [runEntries]
  rw [heq]

theorem runEntries_cons_error {ft : List (Name × List Name)} {sf sfo : List Name}
    {err : ErrOracle} {s s1 : St} {e : Entry} {es : List Entry}
    (heq : processEntry ft sf sfo err s e = .error s1) :
    runEntries ft sf sfo err s (e :: es)
      = .aborted { s1 with remaining := s1.remaining ++ es } := by
  simp only [runEntries]
  rw [heq]

theorem flattenChildren_total {err : ErrOracle} {n : Name} :
    ∀ (cs : List Name) (s : St), (∀ c ∈ cs, err.childMoveFails n c = false) →
    ∃ s2, flattenChildren err n s cs = .ok s2 := by
  intro cs
  induction cs with
  | nil =>
    intro s _
    exact ⟨s, rfl⟩
  | cons c cs ih =>
    intro s h
    have hc : err.childMoveFails n c = false := h c (by simp)
    simp only [flattenChildren, hc]
    simp only [Bool.false_eq_true, if_false]
    exact ih _ fun c1 hc1 => h c1 (by simp [hc1])

theorem extOf_eq_afterLastDot (n : Name) : extOf n = toLowerStr (afterLastDot n) := by
  unfold extOf
  rw [splitDot_getLastD]

theorem no_dot_extOf {n : Name} (h : '.' ∉ n) : extOf n = toLowerStr n := by
  unfold extOf
  rw [no_dot_splitDot h]
  rfl

theorem findCategory_eq_none {ext : Name} :
    ∀ {ft : List (Name × List Name)},
    (∀ p ∈ ft, extensionMatches ext p.2 = false) → findCategory ft ext = none := by
  intro ft
  induction ft with
  | nil => intro; rfl
  | cons p ft ih =>
    intro h
    obtain ⟨cat, exts⟩ := p
    have h1 := h (cat, exts) (by simp)
    simp only [findCategory, h1]
    simp only [Bool.false_eq_true, if_false]
    exact ih fun q hq => h q (by simp [hq])

theorem findCategory_first_match {ext A : Name} {extsA : List Name} :
    ∀ {ft1 : List (Name × List Name)} (ft2 : List (Name × List Name)),
    (∀ p ∈ ft1, extensionMatches ext p.2 = false) →
    extensionMatches ext extsA = true →
    findCategory (ft1 ++ (A, extsA) :: ft2) ext = some A := by
  intro ft1
  induction ft1 with
  | nil =>
    intro ft2 _ hm
    simp only [List.nil_append, findCategory, hm, if_true]
  | cons p ft1 ih =>
    intro ft2 h hm
    obtain ⟨cat, exts⟩ := p
    have h1 := h (cat, exts) (by simp)
    simp only [List.cons_append, findCategory, h1]
    simp only [Bool.false_eq_true, if_false]
    exact ih ft2 (fun q hq => h q (by simp [hq])) hm

/-- C1: for every regular, non-skipped file in the source whose extension
(compared case-insensitively) is listed by some category C of the table,
a completed run moves the file to destination/C/ (with destination/C
created), and the file no longer exists at its original path in the
source. -/
theorem C1_matching_file_moved (ft : List (Name × List Name)) (sf sfo : List Name)
    (err : ErrOracle) (entries : List Entry) (fname C : Name) (s : St)
    (hmem : Entry.file fname ∈ entries)
    (hsf : fname ∉ sf) (hdot : startsWithDot fname = false)
    (hcat : findCategory ft (extOf fname) = some C)
    (hrun : move_files ft sf sfo err entries = .ok s) :
    (C, fname) ∈ s.destFiles ∧ C ∈ s.destDirs ∧ Entry.file fname ∉ s.remaining := by
  unfold move_files at hrun
  have heff := runEntries_ok_file_effect hsf hdot hcat entries _ s hrun hmem
  refine ⟨heff.1, heff.2.1, ?_⟩
  intro hxin
  rcases runEntries_ok_remaining_origin entries _ s hrun _ hxin with hin | ⟨e, hin, hor⟩
  · simp at hin
  · rcases hor with ⟨rfl, hskip⟩ | ⟨n, hxe, he, hnone⟩ | ⟨n, hxe, he⟩ | ⟨n, l, he, hrm, hx⟩
    · simp only [skipCond, Entry.isDir, Entry.name] at hskip
      rcases hskip with ⟨hd, -⟩ | hv | hv
      · exact Bool.noConfusion hd
      · exact hsf hv
      · rw [hdot] at hv
        exact Bool.noConfusion hv
    · subst he
      injection hxe with hn
      subst hn
      rw [hcat] at hnone
      exact Option.noConfusion hnone
    · subst he
      exact Entry.noConfusion hxe
    · exact Entry.noConfusion hx

/-- C3: an entry whose name is in skip_files or begins with the hidden
marker is never moved, whatever its kind and extension: after any run,
completed or aborted, the entry is still in the source with all of its
original contents.  The check covers directories not caught by the
skip_folders rule, so a hidden directory is never flattened. -/
theorem C3_skip_list_precedence (ft : List (Name × List Name)) (sf sfo : List Name)
    (err : ErrOracle) (entries : List Entry) (e : Entry)
    (hmem : e ∈ entries)
    (hskip : e.name ∈ sf ∨ startsWithDot e.name = true) :
    e ∈ (finalSt (move_files ft sf sfo err entries)).remaining := by
  unfold move_files
  refine runEntries_preserved ?_ entries _ hmem
  intro s
  by_cases h1 : e.isDir = true ∧ e.name ∈ sfo
  · exact ⟨_, processEntry_eq_skipFolder h1, by simp⟩
  · exact ⟨_, processEntry_eq_skipFile h1 hskip, by simp⟩

/-- C7: classification is case-insensitive in both directions: the
membership test of the scan succeeds exactly when the lowercased
extension of the file equals the lowercase form of some extension listed
by the category. -/
theorem C7_case_insensitive_match (fname : Name) (exts : List Name) :
    extensionMatches (extOf fname) exts = true ↔
      ∃ e ∈ exts, toLowerStr (afterLastDot fname) = toLowerStr e := by
  unfold extensionMatches
  rw [decide_eq_true_iff]
  rw [extOf_eq_afterLastDot]
  constructor
  · intro h
    rcases List.mem_map.mp h with ⟨e, he, hv⟩
    exact ⟨e, he, hv.symm⟩
  · intro ⟨e, he, hv⟩
    exact List.mem_map.mpr ⟨e, he, hv.symm⟩

/-- C8: deriving the extension is total: for every name it equals the
lowercased substring after the last dot; a name containing no dot yields
the whole lowercased name, which is processed without error and matches
no category unless some category lists that string. -/
theorem C8_extension_total (n : Name) :
    extOf n = toLowerStr (afterLastDot n)
    ∧ ('.' ∉ n → extOf n = toLowerStr n)
    ∧ (∀ ft : List (Name × List Name),
        (∀ p ∈ ft, extensionMatches (extOf n) p.2 = false) →
        findCategory ft (extOf n) = none) :=
  ⟨extOf_eq_afterLastDot n, fun h => no_dot_extOf h, fun _ h => findCategory_eq_none h⟩

/-- C8 witness: the dotless name Makefile is processed without error, its
extension is the whole lowercased name, and it matches no category of a
table that does not list it. -/
theorem C8_extension_total_witness :
    extOf (s2l "Makefile") = toLowerStr (afterLastDot (s2l "Makefile"))
    ∧ extOf (s2l "Makefile") = toLowerStr (s2l "Makefile")
    ∧ findCategory [(s2l "Images", [s2l "jpg"])] (extOf (s2l "Makefile")) = none :=
  ⟨(C8_extension_total (s2l "Makefile")).1,
   (C8_extension_total (s2l "Makefile")).2.1 (by decide),
   (C8_extension_total (s2l "Makefile")).2.2 [(s2l "Images", [s2l "jpg"])] (by decide)⟩

/-- C9: a non-skipped entry that is neither a regular file nor a directory
is left unchanged at its original path and no outcome record is emitted
for it: its loop iteration returns the state with only the entry itself
appended to the source contents, and after any run the entry is still in
the source. -/
theorem C9_other_entries_untouched (ft : List (Name × List Name)) (sf sfo : List Name)
    (err : ErrOracle) (n : Name)
    (hsf : n ∉ sf) (hdot : startsWithDot n = false) :
    (∀ s, processEntry ft sf sfo err s (.other n)
      = .ok { s with remaining := s.remaining ++ [.other n] })
    ∧ ∀ entries, Entry.other n ∈ entries →
        Entry.other n ∈ (finalSt (move_files ft sf sfo err entries)).remaining := by
  have h1 : ¬((Entry.other n).isDir = true ∧ (Entry.other n).name ∈ sfo) := by
    simp [Entry.isDir]
  have h2 : ¬((Entry.other n).name ∈ sf ∨ startsWithDot (Entry.other n).name = true) := by
    simp [Entry.name, hdot]
    exact hsf
  have hstep : ∀ s, processEntry ft sf sfo err s (.other n)
      = .ok { s with remaining := s.remaining ++ [.other n] } := by
    intro s
    rw [processEntry_eq_kind h1 h2]
    rfl
  refine ⟨hstep, fun entries hmem => ?_⟩
  unfold move_files
  exact runEntries_preserved (fun s => ⟨_, hstep s, by simp⟩) entries _ hmem

/-- C10: destination category directories are created lazily: a name C has
a directory created under the destination only when the source contains a
non-skipped subdirectory named C, or a non-skipped file whose extension
scan selects category C. -/
theorem C10_lazy_directory_creation (ft : List (Name × List Name)) (sf sfo : List Name)
    (err : ErrOracle) (entries : List Entry) (C : Name)
    (hmem : C ∈ (finalSt (move_files ft sf sfo err entries)).destDirs) :
    (∃ l, Entry.dir C l ∈ entries ∧ C ∉ sfo ∧ C ∉ sf ∧ startsWithDot C = false)
    ∨ (∃ fn, Entry.file fn ∈ entries ∧ fn ∉ sf ∧ startsWithDot fn = false ∧
        findCategory ft (extOf fn) = some C) := by
  unfold move_files at hmem
  rcases runEntries_destDirs_origin entries _ C hmem with hin | ⟨e, hin, hor⟩
  · simp at hin
  · rcases hor with ⟨l, rfl, hc1, hc2, hc3⟩ | ⟨fn, rfl, hc1, hc2, hc3⟩
    · exact Or.inl ⟨l, hin, hc1, hc2, hc3⟩
    · exact Or.inr ⟨fn, hin, hc1, hc2, hc3⟩

/-- C2 counterexample: the claim that any filesystem error raised while
moving an item is caught at the item boundary and converted to an outcome
record is false: with a table mapping pdf to Docs and an oracle making the
move of a.pdf raise, the run on [a.pdf, b.pdf] aborts (the uncaught
exception propagates, b.pdf is never processed) and no outcome record of
any kind is emitted. -/
theorem C2_error_not_caught_counterexample :
    isAborted (move_files [(s2l "Docs", [s2l "pdf"])] [] [] errPdf
      [Entry.file (s2l "a.pdf"), Entry.file (s2l "b.pdf")]) = true
    ∧ (finalSt (move_files [(s2l "Docs", [s2l "pdf"])] [] [] errPdf
      [Entry.file (s2l "a.pdf"), Entry.file (s2l "b.pdf")])).records = [] :=
  ⟨rfl, rfl⟩

/-- C2 amended: only the folder-deletion step is guarded: an os.rmdir
error on a flattened folder is caught, recorded as a folder-delete-failed
outcome, and the run continues with the remaining entries; an error from
shutil.move is not caught: it aborts the run, no record is emitted for
the failed move, and the remaining entries are left unprocessed in the
source. -/
theorem C2_error_handling_amended :
    (∀ (ft : List (Name × List Name)) (sf sfo : List Name) (err : ErrOracle)
        (dn : Name) (children : List Name) (rest : List Entry),
      dn ∉ sfo → dn ∉ sf → startsWithDot dn = false →
      (∀ c ∈ children, err.childMoveFails dn c = false) →
      err.rmdirFails dn = true →
      ∃ s1, processEntry ft sf sfo err ⟨[], [], [], []⟩ (.dir dn children) = .ok s1
        ∧ OutcomeRecord.folderDeleteFailed dn ∈ s1.records
        ∧ move_files ft sf sfo err (.dir dn children :: rest)
            = runEntries ft sf sfo err s1 rest)
    ∧ (∀ (ft : List (Name × List Name)) (sf sfo : List Name) (err : ErrOracle)
        (fn C : Name) (rest : List Entry),
      fn ∉ sf → startsWithDot fn = false →
      findCategory ft (extOf fn) = some C →
      err.moveFails fn = true →
      ∃ s1, move_files ft sf sfo err (.file fn :: rest) = .aborted s1
        ∧ (∀ r : OutcomeRecord, r ∉ s1.records)
        ∧ ∀ e ∈ rest, e ∈ s1.remaining) := by
  constructor
  · intro ft sf sfo err dn children rest hsfo hsf hdot hnof hrm
    have h1 : ¬((Entry.dir dn children).isDir = true ∧ (Entry.dir dn children).name ∈ sfo) := by
      simp [Entry.isDir, Entry.name]
      exact hsfo
    have h2 : ¬((Entry.dir dn children).name ∈ sf ∨
        startsWithDot (Entry.dir dn children).name = true) := by
      simp [Entry.name, hdot]
      exact hsf
    obtain ⟨s2, hfc⟩ := flattenChildren_total children _ hnof
    have hpe0 : processEntry ft sf sfo err ⟨[], [], [], []⟩ (.dir dn children)
        = processDir err ⟨[], [], [], []⟩ dn children := by
      rw [processEntry_eq_kind h1 h2]
      rfl
    rw [processDir_eq_ok hfc, if_pos hrm] at hpe0
    refine ⟨_, hpe0, by simp, ?_⟩
    unfold move_files
    exact runEntries_cons_ok hpe0
  · intro ft sf sfo err fn C rest hsf hdot hfc hmv
    have h1 : ¬((Entry.file fn).isDir = true ∧ (Entry.file fn).name ∈ sfo) := by
      simp [Entry.isDir]
    have h2 : ¬((Entry.file fn).name ∈ sf ∨ startsWithDot (Entry.file fn).name = true) := by
      simp [Entry.name, hdot]
      exact hsf
    have hpe0 : processEntry ft sf sfo err ⟨[], [], [], []⟩ (.file fn)
        = processFile ft err ⟨[], [], [], []⟩ fn := by
      rw [processEntry_eq_kind h1 h2]
      rfl
    rw [processFile_eq_some hfc, if_pos hmv] at hpe0
    unfold move_files
    refine ⟨_, runEntries_cons_error hpe0, ?_, ?_⟩
    · intro r hr
      simp at hr
    · intro e he
      simp [he]

/-- C4 counterexample: the claim that a run emits a Skipped record with
reason no-matching-category for a file matching no category is false: on
a source holding only note.xyz, with a table listing only jpg, the run
leaves the file in place but emits no outcome record at all. -/
theorem C4_no_match_counterexample :
    (finalSt (move_files [(s2l "Images", [s2l "jpg"])] [] [] noErr
      [Entry.file (s2l "note.xyz")])).records = []
    ∧ Entry.file (s2l "note.xyz") ∈ (finalSt (move_files [(s2l "Images", [s2l "jpg"])]
      [] [] noErr [Entry.file (s2l "note.xyz")])).remaining :=
  ⟨rfl, by decide⟩

/-- C4 amended: a regular, non-skipped file whose extension matches no
category still exists at its original path in the source after any run,
but no outcome record is emitted for it: in particular no record reports
it as moved, and no skip record names it. -/
theorem C4_no_match_amended (ft : List (Name × List Name)) (sf sfo : List Name)
    (err : ErrOracle) (entries : List Entry) (fname : Name)
    (hsf : fname ∉ sf) (hdot : startsWithDot fname = false)
    (hnone : findCategory ft (extOf fname) = none)
    (hmem : Entry.file fname ∈ entries) :
    Entry.file fname ∈ (finalSt (move_files ft sf sfo err entries)).remaining
    ∧ (∀ cat, OutcomeRecord.moved fname cat
        ∉ (finalSt (move_files ft sf sfo err entries)).records)
    ∧ OutcomeRecord.skippedFile fname
        ∉ (finalSt (move_files ft sf sfo err entries)).records := by
  have h1 : ¬((Entry.file fname).isDir = true ∧ (Entry.file fname).name ∈ sfo) := by
    simp [Entry.isDir]
  have h2 : ¬((Entry.file fname).name ∈ sf ∨ startsWithDot (Entry.file fname).name = true) := by
    simp [Entry.name, hdot]
    exact hsf
  have hstep : ∀ s, processEntry ft sf sfo err s (.file fname)
      = .ok { s with remaining := s.remaining ++ [.file fname] } := by
    intro s
    rw [processEntry_eq_kind h1 h2]
    simp only [processKind]
    rw [processFile_eq_none hnone]
  refine ⟨?_, ?_, ?_⟩
  · unfold move_files
    exact runEntries_preserved (fun s => ⟨_, hstep s, by simp⟩) entries _ hmem
  · intro cat hrec
    unfold move_files at hrec
    rcases runEntries_records_origin entries _ _ hrec with hin | ⟨e, -, hor⟩
    · simp at hin
    · rcases hor with ⟨hr, -⟩ | ⟨hr, -⟩ | ⟨n, l, c, -, -, hr⟩ | ⟨n, l, -, hr | hr⟩ |
        ⟨n, cat2, he, hfc, hr⟩
      · exact OutcomeRecord.noConfusion hr
      · exact OutcomeRecord.noConfusion hr
      · exact OutcomeRecord.noConfusion hr
      · exact OutcomeRecord.noConfusion hr
      · exact OutcomeRecord.noConfusion hr
      · injection hr with hn hcat
        subst hn
        rw [hnone] at hfc
        exact Option.noConfusion hfc
  · intro hrec
    unfold move_files at hrec
    rcases runEntries_records_origin entries _ _ hrec with hin | ⟨e, -, hor⟩
    · simp at hin
    · rcases hor with ⟨hr, -⟩ | ⟨hr, hcond⟩ | ⟨n, l, c, -, -, hr⟩ | ⟨n, l, -, hr | hr⟩ |
        ⟨n, cat2, -, -, hr⟩
      · exact OutcomeRecord.noConfusion hr
      · injection hr with hn
        rw [← hn] at hcond
        rcases hcond with hv | hv
        · exact hsf hv
        · rw [hdot] at hv
          exact Bool.noConfusion hv
      · exact OutcomeRecord.noConfusion hr
      · exact OutcomeRecord.noConfusion hr
      · exact OutcomeRecord.noConfusion hr
      · exact OutcomeRecord.noConfusion hr

/-- C5: when a run completes, every child of a non-skipped subdirectory
has been moved directly under destination/<subdir-name>/; if the removal
of the emptied subdirectory failed, the failure was recorded and the
folder is left in the source, now empty; if it succeeded, no entry for
the folder remains in the source. -/
theorem C5_folder_flattening (ft : List (Name × List Name)) (sf sfo : List Name)
    (err : ErrOracle) (entries : List Entry) (dn : Name) (children : List Name) (s : St)
    (hmem : Entry.dir dn children ∈ entries)
    (hsfo : dn ∉ sfo) (hsf : dn ∉ sf) (hdot : startsWithDot dn = false)
    (hrun : move_files ft sf sfo err entries = .ok s) :
    (∀ c ∈ children, (dn, c) ∈ s.destFiles)
    ∧ (err.rmdirFails dn = true →
        Entry.dir dn [] ∈ s.remaining ∧ OutcomeRecord.folderDeleteFailed dn ∈ s.records)
    ∧ (err.rmdirFails dn = false →
        (∀ l, Entry.dir dn l ∉ s.remaining)
        ∧ OutcomeRecord.folderDeleted dn ∈ s.records) := by
  unfold move_files at hrun
  have heff := runEntries_ok_dir_effect hsfo hsf hdot entries _ s hrun hmem
  refine ⟨heff.1, heff.2.2.1, fun hrm => ⟨?_, heff.2.2.2 hrm⟩⟩
  intro l hxin
  rcases runEntries_ok_remaining_origin entries _ s hrun _ hxin with hin | ⟨e, hin, hor⟩
  · simp at hin
  · rcases hor with ⟨rfl, hskip⟩ | ⟨n, hxe, he, -⟩ | ⟨n, hxe, he⟩ | ⟨n, l2, he, hrm2, hx⟩
    · simp only [skipCond, Entry.isDir, Entry.name] at hskip
      rcases hskip with ⟨-, hv⟩ | hv | hv
      · exact hsfo hv
      · exact hsf hv
      · rw [hdot] at hv
        exact Bool.noConfusion hv
    · subst he
      exact Entry.noConfusion hxe
    · subst he
      exact Entry.noConfusion hxe
    · injection hx with hn hl
      subst hn
      rw [hrm] at hrm2
      exact Bool.noConfusion hrm2

/-- C6: the scan takes the first matching category: if the extension of a
non-skipped file is listed by category A and by no category earlier in
the iteration order of the table, a completed run moves the file to
destination/A/ and to no other category directory, in particular never to
a later category B that also lists the extension. -/
theorem C6_first_match_wins (ft1 ft2 : List (Name × List Name)) (A : Name)
    (extsA : List Name) (sf sfo : List Name) (err : ErrOracle)
    (entries : List Entry) (fname : Name) (s : St)
    (hmem : Entry.file fname ∈ entries)
    (hsf : fname ∉ sf) (hdot : startsWithDot fname = false)
    (hmatch : extensionMatches (extOf fname) extsA = true)
    (hpre : ∀ p ∈ ft1, extensionMatches (extOf fname) p.2 = false)
    (hnochild : ∀ n l, Entry.dir n l ∈ entries → fname ∉ l)
    (hrun : move_files (ft1 ++ (A, extsA) :: ft2) sf sfo err entries = .ok s) :
    (A, fname) ∈ s.destFiles ∧ ∀ C, (C, fname) ∈ s.destFiles → C = A := by
  have hcat := @findCategory_first_match (extOf fname) A extsA ft1 ft2 hpre hmatch
  unfold move_files at hrun
  have heff := runEntries_ok_file_effect hsf hdot hcat entries _ s hrun hmem
  refine ⟨heff.1, ?_⟩
  intro C hC
  have hfin : finalSt (runEntries (ft1 ++ (A, extsA) :: ft2) sf sfo err
      ⟨[], [], [], []⟩ entries) = s := by
    rw [hrun]
    rfl
  rw [← hfin] at hC
  rcases runEntries_destFiles_origin entries _ _ hC with hin | ⟨e, hin, hor⟩
  · simp at hin
  · rcases hor with ⟨n, l, c, he, hc, hp⟩ | ⟨n, cat, he, hfc, hp⟩
    · injection hp with hn hc2
      subst he
      subst hc2
      exact absurd hc (hnochild n l hin)
    · injection hp with hn hc2
      subst hc2
      subst hn
      rw [hcat] at hfc
      injection hfc with hv
      exact hv.symm

/-- C1 witness: with a table mapping jpg to Images, a run on a source
holding only photo.JPG moves it to destination/Images/, creates the
Images directory, and removes the file from the source. -/
theorem C1_matching_file_moved_witness :
    (s2l "Images", s2l "photo.JPG") ∈ (finalSt (move_files [(s2l "Images", [s2l "jpg"])]
      [] [] noErr [Entry.file (s2l "photo.JPG")])).destFiles
    ∧ s2l "Images" ∈ (finalSt (move_files [(s2l "Images", [s2l "jpg"])]
      [] [] noErr [Entry.file (s2l "photo.JPG")])).destDirs
    ∧ Entry.file (s2l "photo.JPG") ∉ (finalSt (move_files [(s2l "Images", [s2l "jpg"])]
      [] [] noErr [Entry.file (s2l "photo.JPG")])).remaining :=
  C1_matching_file_moved [(s2l "Images", [s2l "jpg"])] [] [] noErr
    [Entry.file (s2l "photo.JPG")] (s2l "photo.JPG") (s2l "Images") _
    (by decide) (by decide) (by decide) (by decide) rfl

/-- C2 amended witness: a failing rmdir on OldStuff is caught and recorded
while the run continues, and a failing move of a.pdf aborts the run with
b.pdf left unprocessed and no record emitted. -/
theorem C2_error_handling_amended_witness :
    (∃ s1, processEntry [] [] [] errRmdir ⟨[], [], [], []⟩
        (.dir (s2l "OldStuff") [s2l "a.txt"]) = .ok s1
      ∧ OutcomeRecord.folderDeleteFailed (s2l "OldStuff") ∈ s1.records
      ∧ move_files [] [] [] errRmdir [.dir (s2l "OldStuff") [s2l "a.txt"]]
          = runEntries [] [] [] errRmdir s1 [])
    ∧ (∃ s1, move_files [(s2l "Docs", [s2l "pdf"])] [] [] errPdf
        [.file (s2l "a.pdf"), .file (s2l "b.pdf")] = .aborted s1
      ∧ (∀ r : OutcomeRecord, r ∉ s1.records)
      ∧ ∀ e ∈ [Entry.file (s2l "b.pdf")], e ∈ s1.remaining) :=
  ⟨C2_error_handling_amended.1 [] [] [] errRmdir (s2l "OldStuff") [s2l "a.txt"] []
    (by decide) (by decide) (by decide) (by decide) (by decide),
   C2_error_handling_amended.2 [(s2l "Docs", [s2l "pdf"])] [] [] errPdf
    (s2l "a.pdf") (s2l "Docs") [Entry.file (s2l "b.pdf")]
    (by decide) (by decide) (by decide) (by decide)⟩

/-- C3 witness: the hidden directory .git, with a child, is skipped by the
hidden-name rule and still in the source, unflattened, after a run. -/
theorem C3_skip_list_precedence_witness :
    Entry.dir (s2l ".git") [s2l "config"] ∈ (finalSt (move_files
      [(s2l "Images", [s2l "jpg"])] [] [] noErr
      [Entry.dir (s2l ".git") [s2l "config"]])).remaining :=
  C3_skip_list_precedence [(s2l "Images", [s2l "jpg"])] [] [] noErr
    [Entry.dir (s2l ".git") [s2l "config"]] (Entry.dir (s2l ".git") [s2l "config"])
    (by decide) (by decide)

/-- C4 amended witness: note.xyz matches no category of a table listing
only jpg: after the run it is still in the source and no moved or skip
record names it. -/
theorem C4_no_match_amended_witness :
    Entry.file (s2l "note.xyz") ∈ (finalSt (move_files [(s2l "Images", [s2l "jpg"])]
      [] [] noErr [Entry.file (s2l "note.xyz")])).remaining
    ∧ (∀ cat, OutcomeRecord.moved (s2l "note.xyz") cat
        ∉ (finalSt (move_files [(s2l "Images", [s2l "jpg"])]
          [] [] noErr [Entry.file (s2l "note.xyz")])).records)
    ∧ OutcomeRecord.skippedFile (s2l "note.xyz")
        ∉ (finalSt (move_files [(s2l "Images", [s2l "jpg"])]
          [] [] noErr [Entry.file (s2l "note.xyz")])).records :=
  C4_no_match_amended [(s2l "Images", [s2l "jpg"])] [] [] noErr
    [Entry.file (s2l "note.xyz")] (s2l "note.xyz")
    (by decide) (by decide) (by decide) (by decide)

/-- C5 witness: a run on a source holding only OldStuff containing a.txt
and b.txt moves both children under destination/OldStuff/ and, rmdir
succeeding, leaves no OldStuff entry in the source. -/
theorem C5_folder_flattening_witness :
    (∀ c ∈ [s2l "a.txt", s2l "b.txt"], (s2l "OldStuff", c) ∈ (finalSt (move_files []
      [] [] noErr [Entry.dir (s2l "OldStuff") [s2l "a.txt", s2l "b.txt"]])).destFiles)
    ∧ (noErr.rmdirFails (s2l "OldStuff") = true →
        Entry.dir (s2l "OldStuff") [] ∈ (finalSt (move_files []
          [] [] noErr [Entry.dir (s2l "OldStuff") [s2l "a.txt", s2l "b.txt"]])).remaining
        ∧ OutcomeRecord.folderDeleteFailed (s2l "OldStuff") ∈ (finalSt (move_files []
          [] [] noErr [Entry.dir (s2l "OldStuff") [s2l "a.txt", s2l "b.txt"]])).records)
    ∧ (noErr.rmdirFails (s2l "OldStuff") = false →
        (∀ l, Entry.dir (s2l "OldStuff") l ∉ (finalSt (move_files []
          [] [] noErr [Entry.dir (s2l "OldStuff") [s2l "a.txt", s2l "b.txt"]])).remaining)
        ∧ OutcomeRecord.folderDeleted (s2l "OldStuff") ∈ (finalSt (move_files []
          [] [] noErr [Entry.dir (s2l "OldStuff") [s2l "a.txt", s2l "b.txt"]])).records) :=
  C5_folder_flattening [] [] [] noErr
    [Entry.dir (s2l "OldStuff") [s2l "a.txt", s2l "b.txt"]]
    (s2l "OldStuff") [s2l "a.txt", s2l "b.txt"] _
    (by decide) (by decide) (by decide) (by decide) rfl

/-- C6 witness: in the table of src/filenames.py the extension bin is
listed both by disc (earlier) and by executable (later); a run on
setup.bin moves it to destination/disc/ and to no other category. -/
theorem C6_first_match_wins_witness :
    (s2l "disc", s2l "setup.bin") ∈ (finalSt (move_files filenamesTable
      [] [] noErr [Entry.file (s2l "setup.bin")])).destFiles
    ∧ ∀ C, (C, s2l "setup.bin") ∈ (finalSt (move_files filenamesTable
      [] [] noErr [Entry.file (s2l "setup.bin")])).destFiles → C = s2l "disc" :=
  C6_first_match_wins
    [(s2l "compressed", compressedExtension), (s2l "audio", audioExtension)]
    [(s2l "data", dataExtension), (s2l "email", emailExtension),
     (s2l "executable", executableExtension), (s2l "font", fontExtension),
     (s2l "pictures", pictureExtension), (s2l "presentation", presentationExtension),
     (s2l "spreadsheet", spreadsheetExtension), (s2l "text", textExtension),
     (s2l "video", videoExtension)]
    (s2l "disc") discExtension [] [] noErr [Entry.file (s2l "setup.bin")]
    (s2l "setup.bin") _
    (by decide) (by decide) (by decide) (by decide) (by decide)
    (by
      intro n l hl
      exact absurd (List.mem_singleton.mp hl) (by simp))
    rfl

/-- C9 witness: the entry weird, neither file nor directory, is left in
place by its loop iteration with no record and no destination change,
and survives a run untouched. -/
theorem C9_other_entries_untouched_witness :
    (∀ s, processEntry [] [] [] noErr s (Entry.other (s2l "weird"))
      = .ok { s with remaining := s.remaining ++ [Entry.other (s2l "weird")] })
    ∧ ∀ entries, Entry.other (s2l "weird") ∈ entries →
        Entry.other (s2l "weird") ∈ (finalSt (move_files [] [] [] noErr entries)).remaining :=
  C9_other_entries_untouched [] [] [] noErr (s2l "weird") (by decide) (by decide)

/-- C10 witness: after a run that moved photo.JPG into Images, the Images
directory exists under the destination because some processed file was
classified into it. -/
theorem C10_lazy_directory_creation_witness :
    (∃ l, Entry.dir (s2l "Images") l ∈ [Entry.file (s2l "photo.JPG")]
      ∧ s2l "Images" ∉ ([] : List Name) ∧ s2l "Images" ∉ ([] : List Name)
      ∧ startsWithDot (s2l "Images") = false)
    ∨ (∃ fn, Entry.file fn ∈ [Entry.file (s2l "photo.JPG")]
      ∧ fn ∉ ([] : List Name) ∧ startsWithDot fn = false
      ∧ findCategory [(s2l "Images", [s2l "jpg"])] (extOf fn) = some (s2l "Images")) :=
  C10_lazy_directory_creation [(s2l "Images", [s2l "jpg"])] [] [] noErr
    [Entry.file (s2l "photo.JPG")] (s2l "Images") (by decide)

end DeskSave
